import Mathlib

/-!
Shallow embedding of `src/context/TranslationsContext.tsx` from
react-native-firebase-translations: the translation resolver `t`, the
parameter interpolation helper `interpolateParams`, the reshape of the
remote translations document performed by `fetchAndUpdateTranslations`,
and the version-reconciliation logic of `onVersionChange`, together with
theorems settling the specification claims.
-/

namespace RNFT

/-! ### Association-list primitives modelling JavaScript plain-object access -/

/-- Own-property read (`m[k]`): the first binding of the key. -/
def alGet {α : Type} : List (String × α) → String → Option α
  | [], _ => none
  | (k1, v) :: rest, k => if k1 = k then some v else alGet rest k

/-- Property assignment (`m[k] = v`): overwrite in place when the key exists,
else append, matching JavaScript object key enumeration order. -/
def alSet {α : Type} : List (String × α) → String → α → List (String × α)
  | [], k, v => [(k, v)]
  | (k1, v1) :: rest, k, v =>
    if k1 = k then (k, v) :: rest else (k1, v1) :: alSet rest k v

/-! ### Key splitting: `key.split(".")` -/

def splitDotAux : List Char → List Char → List String
  | [], cur => [String.mk cur.reverse]
  | c :: cs, cur =>
    if c = '.' then String.mk cur.reverse :: splitDotAux cs []
    else splitDotAux cs (c :: cur)

/-- `key.split(".")` of line 89: empty pieces are kept, `""` splits to `[""]`. -/
def splitDot (s : String) : List String := splitDotAux s.toList []

/-! ### Parameter interpolation (`interpolateParams`, lines 74-84)

The source builds, for each params entry `(key, value)`, the regex
`{{\s*key\s*}}` and replaces every occurrence in the accumulated string by
the stringified value, folding over the entries in order.  The model
matches the param key literally and inserts the replacement verbatim. -/

/-- The JavaScript `\s` character class. -/
def jsWhitespace (c : Char) : Bool :=
  let n := c.toNat
  (n == 9) || (n == 10) || (n == 11) || (n == 12) || (n == 13) || (n == 32) ||
  (n == 160) || (n == 0x1680) || (Nat.ble 0x2000 n && Nat.ble n 0x200a) ||
  (n == 0x2028) || (n == 0x2029) || (n == 0x202f) || (n == 0x205f) ||
  (n == 0x3000) || (n == 0xfeff)

def skipWs : List Char → List Char
  | [] => []
  | c :: cs => if jsWhitespace c then skipWs cs else c :: cs

/-- Drop an exact literal from the head of the input, or fail. -/
def dropLit : List Char → List Char → Option (List Char)
  | [], s => some s
  | _ :: _, [] => none
  | p :: ps, c :: cs => if c = p then dropLit ps cs else none

def obrace : Char := Char.ofNat 123

def cbrace : Char := Char.ofNat 125

/-- Match the regex `{{\s*key\s*}}` at the head of `s`; on success return the
remaining input after the match. -/
def matchPlaceholder (key : List Char) (s : List Char) : Option (List Char) :=
  match dropLit [obrace, obrace] s with
  | none => none
  | some s1 =>
    match dropLit key (skipWs s1) with
    | none => none
    | some s3 =>
      match dropLit [cbrace, cbrace] (skipWs s3) with
      | none => none
      | some s5 => some s5

/-- Global replacement: scan left to right, replace each match and continue
after it (a substituted value is not rescanned within one pass).  `fuel`
bounds the recursion; `s.length` is always enough. -/
def replAllGo (key val : List Char) : Nat → List Char → List Char
  | _, [] => []
  | 0, s => s
  | fuel + 1, c :: cs =>
    match matchPlaceholder key (c :: cs) with
    | some rest => val ++ replAllGo key val fuel rest
    | none => c :: replAllGo key val fuel cs

/-- One `result.replace(regex, String(value))` step of line 82. -/
def replaceAllPl (key val text : String) : String :=
  (replAllGo key.toList val.toList text.toList.length text.toList).asString

/-- `interpolateParams` (lines 74-84): params as an ordered association list of
already-stringified values (`Object.entries` order); absent params return the
text unchanged. -/
def interpolateParams (text : String) (params : Option (List (String × String))) : String :=
  match params with
  | none => text
  | some ps => ps.foldl (fun result kv => replaceAllPl kv.1 kv.2 result) text

/-! ### The translation resolver `t` (lines 87-132) -/

/-- A JSON-ish value stored in the translations data: a string, a plain
object, or anything else (`null`, numbers, booleans), which the resolver
treats as neither walkable nor a final string. -/
inductive JVal
  | str (s : String)
  | obj (fields : List (String × JVal))
  | other

/-- Outcome of the main `for (const k of keys)` loop: either every segment
matched and the loop completed with a final value, or some segment missed
(the guard `value && typeof value === "object" && k in value` failed). -/
inductive MainRes
  | completed (v : Option JVal)
  | missed

/-- The segment walk of lines 93-123 (the else-branch outcome abstracted as
`missed`).  The initial value is `translationsData[locale]`, possibly
`undefined` (`none`). -/
def mainWalk : Option JVal → List String → MainRes
  | v, [] => MainRes.completed v
  | some (JVal.obj fields), k :: ks =>
    match alGet fields k with
    | some v1 => mainWalk (some v1) ks
    | none => MainRes.missed
  | _, _ :: _ => MainRes.missed

/-- The fallback walk of lines 99-117: the same loop with a `found` flag; its
result is used only when `found && typeof fallbackValue === "string"`. -/
def walkStr (v : Option JVal) (segs : List String) : Option String :=
  match mainWalk v segs with
  | MainRes.completed (some (JVal.str s)) => some s
  | _ => none

/-- The translation function `t` (lines 87-132). -/
def t (translationsData : List (String × JVal)) (locale fallbackLocale : String)
    (key : String) (params : Option (List (String × String))) : String :=
  match mainWalk (alGet translationsData locale) (splitDot key) with
  | MainRes.completed v =>
    match v with
    | some (JVal.str s) => interpolateParams s params
    | _ => key
  | MainRes.missed =>
    if locale ≠ fallbackLocale then
      match walkStr (alGet translationsData fallbackLocale) (splitDot key) with
      | some s => interpolateParams s params
      | none => key
    else key

/-! ### Reshaping the remote document (`fetchAndUpdateTranslations`, lines 185-235)

The remote `TranslationDocument` maps translation-key to locale-code to
string; the processed table maps locale-code to translation-key to string.
Both are modelled as ordered association lists mirroring JavaScript object
key enumeration order. -/

/-- One locale-to-string (or key-to-string) row of a document entry. -/
abbrev Row := List (String × String)

/-- The remote document: translation-key to (locale-code to string). -/
abbrev TransDoc := List (String × Row)

/-- The processed table: locale-code to (translation-key to string). -/
abbrev FlatTable := List (String × Row)

/-- `firebaseTranslations[key][lang]` as an optional value. -/
def docVal (doc : TransDoc) (key lang : String) : Option String :=
  match alGet doc key with
  | some entry => alGet entry lang
  | none => none

/-- `key.startsWith("---")` of line 210: the first three characters are
hyphens. -/
def isReserved (key : String) : Bool :=
  match key.toList with
  | '-' :: '-' :: '-' :: _ => true
  | _ => false

/-- `languages = Object.keys(firebaseTranslations[keys[0]])` (lines 198-201):
the second-level keys of the first top-level entry, `[]` for an empty
document. -/
def languagesOf (doc : TransDoc) : List String :=
  match doc with
  | [] => []
  | (_, v0) :: _ => v0.map Prod.fst

/-- `processedTranslations[lang][key] = value`: update one leaf of the
processed table. -/
def alSet2 (acc : FlatTable) (lang key s : String) : FlatTable :=
  alSet acc lang (alSet ((alGet acc lang).getD []) key s)

/-- The body of the inner `languages.forEach` (lines 211-219): write the
value when `firebaseTranslations[key] && firebaseTranslations[key][lang]`
is truthy (for string values, truthy means nonempty). -/
def fillStep (doc : TransDoc) (key : String) (acc : FlatTable) (lang : String) : FlatTable :=
  match alGet doc key with
  | some entry =>
    match alGet entry lang with
    | some s => if s = "" then acc else alSet2 acc lang key s
    | none => acc
  | none => acc

/-- The reshape of lines 194-221: detect the languages from the first
top-level key, initialise each language to an empty object, then for every
non-reserved key copy each truthy `doc[key][lang]` to `result[lang][key]`. -/
def reshape (doc : TransDoc) : FlatTable :=
  let keys := doc.map Prod.fst
  let languages := languagesOf doc
  let init := languages.foldl (fun acc lang => alSet acc lang ([] : Row)) ([] : FlatTable)
  keys.foldl
    (fun acc key =>
      if isReserved key then acc else languages.foldl (fillStep doc key) acc)
    init

/-- Read `table[lang][key]` from a processed table. -/
def lookup2 (tbl : FlatTable) (lang key : String) : Option String :=
  match alGet tbl lang with
  | some row => alGet row key
  | none => none

/-! ### The version reconciliation (`onVersionChange`, lines 247-295) -/

/-- The wire shapes of the version payload (lines 256-262): a bare number,
an object with an optional `version` field, or anything else. -/
inductive VersionData
  | num (n : Nat)
  | obj (version : Option Nat)
  | other
deriving DecidableEq

/-- Lines 257-262: a bare number is taken as-is; an object contributes its
`version` field when truthy; everything else gives 0. -/
def extractVersion : VersionData → Nat
  | VersionData.num n => n
  | VersionData.obj (some v) => v
  | VersionData.obj none => 0
  | VersionData.other => 0

/-- The observable writes a reconcile run performs, in order: the React
state updates (`setTranslationsVersion`, `setTranslationsData`) and the
AsyncStorage persistences of the version and of the serialized table. -/
inductive Eff
  | setMemVersion (v : Nat)
  | persistVersion (v : Nat)
  | setMemTable (tbl : FlatTable)
  | persistTable (tbl : FlatTable)
deriving DecidableEq

/-- The state touched by a reconcile run: the persisted version
(`@translations:version`), the persisted table (`@translations:data`), and
the in-memory version and table held in React state. -/
structure SyncState where
  storedVersion : Option Nat
  storedData : Option FlatTable
  memVersion : Nat
  memTable : FlatTable
deriving DecidableEq

/-- `fetchAndUpdateTranslations` (lines 185-235): when the snapshot value is
present, reshape it, replace the in-memory table, then persist the reshaped
table; when absent (or the fetch failed), do nothing. -/
def fetchAndUpdateTranslations (doc : Option TransDoc) (s : SyncState) :
    SyncState × List Eff :=
  match doc with
  | none => (s, [])
  | some d =>
    let p := reshape d
    ({ s with memTable := p, storedData := some p },
      [Eff.setMemTable p, Eff.persistTable p])

/-- `onVersionChange` (lines 247-295), one reconcile run: extract the remote
version, read the stored version (0 when absent), and when
`remoteVersion > currentStoredVersion` set the in-memory version, persist
the version, then fetch and apply the translations; otherwise do nothing. -/
def onVersionChange (vd : VersionData) (doc : Option TransDoc) (s : SyncState) :
    SyncState × List Eff :=
  let remoteVersion := extractVersion vd
  let currentStoredVersion := s.storedVersion.getD 0
  if currentStoredVersion < remoteVersion then
    let s1 := { s with memVersion := remoteVersion, storedVersion := some remoteVersion }
    ((fetchAndUpdateTranslations doc s1).1,
      Eff.setMemVersion remoteVersion :: Eff.persistVersion remoteVersion ::
        (fetchAndUpdateTranslations doc s1).2)
  else (s, [])

/-- Checks that in a trace every persisted version is preceded by some
persisted table (the ordering claimed by the spec). -/
def dataBeforeVersion (tr : List Eff) : Bool :=
  (tr.foldl
    (fun st e =>
      match e with
      | Eff.persistTable _ => (true, st.2)
      | Eff.persistVersion _ => (st.1, st.2 && st.1)
      | _ => st)
    (false, true)).2

/-- Checks that in a trace every persisted table is preceded by some
persisted version (the ordering the code implements). -/
def versionBeforeData (tr : List Eff) : Bool :=
  (tr.foldl
    (fun st e =>
      match e with
      | Eff.persistVersion _ => (true, st.2)
      | Eff.persistTable _ => (st.1, st.2 && st.1)
      | _ => st)
    (false, true)).2

/-! ### The polling fallback (lines 307-362) -/

/-- The props relevant to the polling effect: `pollingInterval` as passed
(`none` when not provided). -/
structure ProviderProps where
  disableFirebaseSync : Bool
  pollingInterval : Option Nat

/-- The interval the polling effect actually arms (lines 308-313): `none`
when no timer is started.  The destructured props (lines 54-64) do not
include `pollingInterval`; line 312 hardcodes `const interval = 30000`. -/
def pollingTimerInterval (props : ProviderProps) : Option Nat :=
  if props.disableFirebaseSync then none
  else
    let interval := 30000
    if interval ≤ 0 then none else some interval

/-! ### Claim-side definitions, for refinement comparison only

`specSimulSubst` follows the specification's words for interpolation: one
simultaneous left-to-right pass over the template in which every
whitespace-tolerant placeholder of a params key is replaced by that key's
value and everything else is left verbatim.  It is compared against the
source-derived `interpolateParams`. -/

/-- Find the first params entry whose placeholder matches at the head of
`s`; return its value and the rest of the input. -/
def specFindMatch (ps : List (String × String)) (s : List Char) :
    Option (String × List Char) :=
  match ps with
  | [] => none
  | (k, v) :: rest =>
    match matchPlaceholder k.toList s with
    | some r => some (v, r)
    | none => specFindMatch rest s

def specSimulSubstGo (ps : List (String × String)) : Nat → List Char → List Char
  | _, [] => []
  | 0, s => s
  | fuel + 1, c :: cs =>
    match specFindMatch ps (c :: cs) with
    | some (v, rest) => v.toList ++ specSimulSubstGo ps fuel rest
    | none => c :: specSimulSubstGo ps fuel cs

/-- The specification's simultaneous single-pass substitution. -/
def specSimulSubst (text : String) (ps : List (String × String)) : String :=
  (specSimulSubstGo ps text.toList.length text.toList).asString

/-! ### Auxiliary definitions used by the statements and proofs -/

/-- Left-biased choice on options (the overriding effect of an assignment). -/
def ovr {α : Type} (a b : Option α) : Option α :=
  match a with
  | some v => some v
  | none => b

/-- `doc[key][lang]` filtered by JavaScript truthiness: the empty string is
falsy, every other string truthy. -/
def truthyVal (doc : TransDoc) (key lang : String) : Option String :=
  match docVal doc key lang with
  | some s => if s = "" then none else some s
  | none => none

/-- The reshape round-trip example document from the specification. -/
def exampleDoc : TransDoc :=
  [("k1", [("en", "A"), ("tr", "B")]), ("k2", [("en", "C")]),
   ("---meta", [("en", "skip")])]

/-- A document whose locale `tr` appears only under the second key. -/
def lateLocaleDoc : TransDoc :=
  [("k1", [("en", "A")]), ("k2", [("en", "C"), ("tr", "B")])]

/-- A document whose `en` translation of key `k` is the empty string. -/
def falsyDoc : TransDoc := [("k", [("en", ""), ("tr", "B")])]

/-- A locale table whose current locale holds a non-string at key `a` while
the fallback locale holds the string `X` there. -/
def nonStringTable : List (String × JVal) :=
  [("tr", JVal.obj [("a", JVal.obj [])]),
   ("en", JVal.obj [("a", JVal.str "X")])]

/-- A locale table where `greet` is absent under `tr` and maps to `Hi`
under `en`. -/
def fallbackTable : List (String × JVal) :=
  [("tr", JVal.obj []), ("en", JVal.obj [("greet", JVal.str "Hi")])]

/-- A sync state holding a previously applied good table and no persisted
version. -/
def cachedState : SyncState :=
  { storedVersion := none
    storedData := some [("en", [("hello", "Hi")])]
    memVersion := 0
    memTable := [("en", [("hello", "Hi")])] }

/-! ### Association-list lemmas -/

theorem alGet_alSet {α : Type} (m : List (String × α)) (k q : String) (v : α) :
    alGet (alSet m k v) q = if k = q then some v else alGet m q := by
  induction m with
  | nil => simp only [alSet, alGet]
  | cons hd tl ih =>
    obtain ⟨k1, v1⟩ := hd
    by_cases h1 : k1 = k
    · subst h1
      simp only [alSet, if_pos rfl, alGet]
      by_cases h : k1 = q
      · simp [h]
      · simp [h]
    · simp only [alSet, if_neg h1, alGet, ih]
      by_cases h2 : k1 = q
      · subst h2
        have hkq : ¬(k = k1) := fun hh => h1 hh.symm
        simp [hkq]
      · simp [h2]

theorem alGet_append {α : Type} (a b : List (String × α)) (q : String) :
    alGet (a ++ b) q = ovr (alGet a q) (alGet b q) := by
  induction a with
  | nil => simp [alGet, ovr]
  | cons hd tl ih =>
    obtain ⟨k1, v1⟩ := hd
    by_cases h : k1 = q <;> simp [alGet, h, ovr, ih]

theorem alGet_eq_none_iff_forall {α : Type} (m : List (String × α)) (q : String) :
    alGet m q = none ↔ ∀ p ∈ m, p.1 ≠ q := by
  induction m with
  | nil => simp [alGet]
  | cons hd tl ih =>
    obtain ⟨k1, v1⟩ := hd
    by_cases h : k1 = q <;> simp [alGet, h, ih]

theorem alSet_of_get_none {α : Type} (m : List (String × α)) (k : String) (v : α)
    (h : alGet m k = none) : alSet m k v = m ++ [(k, v)] := by
  induction m with
  | nil => simp [alSet]
  | cons hd tl ih =>
    obtain ⟨k1, v1⟩ := hd
    by_cases h1 : k1 = k
    · simp [alGet, h1] at h
    · simp [alGet, h1] at h
      simp [alSet, h1, ih h]

theorem alSet_map_fst_of_get_some {α : Type} (m : List (String × α)) (k : String)
    (v w : α) (h : alGet m k = some w) :
    (alSet m k v).map Prod.fst = m.map Prod.fst := by
  induction m with
  | nil => simp [alGet] at h
  | cons hd tl ih =>
    obtain ⟨k1, v1⟩ := hd
    by_cases h1 : k1 = k
    · simp [alSet, h1]
    · simp [alGet, h1] at h
      simp [alSet, h1, ih h]

theorem alGet_alSet_isSome {α : Type} (m : List (String × α)) (k q : String) (v : α)
    (h : (alGet m q).isSome) : (alGet (alSet m k v) q).isSome := by
  rw [alGet_alSet]
  by_cases hk : k = q
  · simp [hk]
  · simpa [hk] using h

theorem lookup2_alSet2 (acc : FlatTable) (lang key s l k : String) :
    lookup2 (alSet2 acc lang key s) l k =
      if lang = l ∧ key = k then some s else lookup2 acc l k := by
  unfold lookup2 alSet2
  rw [alGet_alSet]
  by_cases hl : lang = l
  · subst hl
    simp only [eq_self_iff_true, if_true, true_and]
    rw [alGet_alSet]
    by_cases hk : key = k
    · simp [hk]
    · simp only [if_neg hk, hk, if_false]
      cases hacc : alGet acc lang <;> simp [Option.getD, alGet]
  · simp [hl]

theorem alSet2_map_fst_of_get_some (acc : FlatTable) (lang key s : String)
    (w : Row) (h : alGet acc lang = some w) :
    (alSet2 acc lang key s).map Prod.fst = acc.map Prod.fst := by
  unfold alSet2
  exact alSet_map_fst_of_get_some _ _ _ _ h

theorem ovr_none_right {α : Type} (a : Option α) : ovr a none = a := by
  cases a <;> rfl

/-! ### Reshape fold lemmas -/

theorem lookup2_fillStep (doc : TransDoc) (key : String) (acc : FlatTable)
    (lang l k : String) :
    lookup2 (fillStep doc key acc lang) l k =
      ovr (if lang = l ∧ key = k then truthyVal doc key lang else none)
        (lookup2 acc l k) := by
  unfold fillStep truthyVal docVal
  cases hdoc : alGet doc key with
  | none =>
    rw [ite_self]
    rfl
  | some entry =>
    dsimp only
    cases hentry : alGet entry lang with
    | none =>
      rw [ite_self]
      rfl
    | some s =>
      by_cases hs : s = ""
      · simp only [if_pos hs]
        rw [ite_self]
        rfl
      · simp only [if_neg hs]
        rw [lookup2_alSet2]
        by_cases hc : lang = l ∧ key = k
        · simp [hc, ovr]
        · simp [hc, ovr]

theorem lookup2_fillFold (doc : TransDoc) (key : String) (l k : String) :
    ∀ (ls : List String) (acc : FlatTable),
      lookup2 (ls.foldl (fillStep doc key) acc) l k =
        ovr (if l ∈ ls ∧ key = k then truthyVal doc key l else none)
          (lookup2 acc l k) := by
  intro ls
  induction ls with
  | nil =>
    intro acc
    simp [ovr]
  | cons lang rest ih =>
    intro acc
    rw [List.foldl_cons, ih, lookup2_fillStep]
    by_cases hk : key = k
    · subst hk
      by_cases hlang : lang = l
      · subst hlang
        by_cases hmem : lang ∈ rest
        · cases htv : truthyVal doc key lang <;>
            simp [htv, hmem, ovr, List.mem_cons]
        · cases htv : truthyVal doc key lang <;>
            simp [htv, hmem, ovr, List.mem_cons]
      · by_cases hmem : l ∈ rest
        · cases htv : truthyVal doc key l <;>
            simp [htv, hmem, hlang, ovr, List.mem_cons]
        · have hne : ¬(l = lang ∨ l ∈ rest) := by
            rintro (h | h)
            · exact hlang h.symm
            · exact hmem h
          have hlangs : ¬(l = lang) := fun h => hlang h.symm
          simp [hmem, hlang, hlangs, hne, ovr, List.mem_cons]
    · simp [hk, ovr]

theorem lookup2_outerFold (doc : TransDoc) (langs : List String) (l k : String) :
    ∀ (ks : List String) (acc : FlatTable),
      lookup2
          (ks.foldl
            (fun acc key =>
              if isReserved key then acc else langs.foldl (fillStep doc key) acc)
            acc) l k =
        ovr (if k ∈ ks ∧ isReserved k = false ∧ l ∈ langs then truthyVal doc k l else none)
          (lookup2 acc l k) := by
  intro ks
  induction ks with
  | nil =>
    intro acc
    simp [ovr]
  | cons key rest ih =>
    intro acc
    rw [List.foldl_cons]
    by_cases hres : isReserved key
    · rw [if_pos hres, ih]
      by_cases hkey : key = k
      · subst hkey
        have hresf : ¬(isReserved key = false) := by simp [hres]
        simp [hres, hresf, ovr]
      · by_cases hC : k ∈ rest ∧ isReserved k = false ∧ l ∈ langs
        · have hC2 : k ∈ key :: rest ∧ isReserved k = false ∧ l ∈ langs :=
            ⟨List.mem_cons_of_mem _ hC.1, hC.2⟩
          rw [if_pos hC, if_pos hC2]
        · have hC2 : ¬(k ∈ key :: rest ∧ isReserved k = false ∧ l ∈ langs) := by
            rintro ⟨hm, h2, h3⟩
            rcases List.mem_cons.mp hm with h | h
            · exact hkey h.symm
            · exact hC ⟨h, h2, h3⟩
          rw [if_neg hC, if_neg hC2]
    · rw [if_neg hres, ih, lookup2_fillFold]
      have hresf : isReserved key = false := by
        cases hb : isReserved key
        · rfl
        · exact absurd hb hres
      by_cases hkey : key = k
      · subst hkey
        by_cases hl : l ∈ langs
        · by_cases hmem : key ∈ rest
          · cases htv : truthyVal doc key l <;>
              simp [htv, hmem, hl, hresf, ovr, List.mem_cons]
          · cases htv : truthyVal doc key l <;>
              simp [htv, hmem, hl, hresf, ovr, List.mem_cons]
        · simp [hl, ovr]
      · simp only [hkey, and_false, if_false]
        by_cases hC : k ∈ rest ∧ isReserved k = false ∧ l ∈ langs
        · have hC2 : k ∈ key :: rest ∧ isReserved k = false ∧ l ∈ langs :=
            ⟨List.mem_cons_of_mem _ hC.1, hC.2⟩
          rw [if_pos hC, if_pos hC2]
          rfl
        · have hC2 : ¬(k ∈ key :: rest ∧ isReserved k = false ∧ l ∈ langs) := by
            rintro ⟨hm, h2, h3⟩
            rcases List.mem_cons.mp hm with h | h
            · exact hkey h.symm
            · exact hC ⟨h, h2, h3⟩
          rw [if_neg hC, if_neg hC2]
          rfl

theorem initFold_get (ls : List String) :
    ∀ (acc : FlatTable),
      (∀ q, alGet acc q = none ∨ alGet acc q = some ([] : Row)) →
      ∀ q, alGet (ls.foldl (fun a lang => alSet a lang ([] : Row)) acc) q = none ∨
        alGet (ls.foldl (fun a lang => alSet a lang ([] : Row)) acc) q = some ([] : Row) := by
  induction ls with
  | nil => exact fun acc h q => h q
  | cons lang rest ih =>
    intro acc h q
    rw [List.foldl_cons]
    refine ih _ (fun q1 => ?_) q
    rw [alGet_alSet]
    by_cases hl : lang = q1
    · simp [hl]
    · simpa [hl] using h q1

theorem lookup2_init (ls : List String) (l k : String) :
    lookup2 (ls.foldl (fun a lang => alSet a lang ([] : Row)) ([] : FlatTable)) l k = none := by
  have h := initFold_get ls [] (fun q => Or.inl rfl) l
  unfold lookup2
  rcases h with h | h <;> rw [h]
  simp [alGet]

/-- The full leaf-level characterization of the reshaped table. -/
theorem reshape_lookup (doc : TransDoc) (l k : String) :
    lookup2 (reshape doc) l k =
      if isReserved k = false ∧ l ∈ languagesOf doc then truthyVal doc k l else none := by
  unfold reshape
  rw [lookup2_outerFold, lookup2_init, ovr_none_right]
  by_cases hP : isReserved k = false ∧ l ∈ languagesOf doc
  · by_cases hk : k ∈ doc.map Prod.fst
    · rw [if_pos ⟨hk, hP.1, hP.2⟩, if_pos hP]
    · have hdoc : alGet doc k = none := by
        rw [alGet_eq_none_iff_forall]
        intro p hp hq
        exact hk (List.mem_map.mpr ⟨p, hp, hq⟩)
      have htv : truthyVal doc k l = none := by
        simp [truthyVal, docVal, hdoc]
      rw [if_neg (fun hc => hk hc.1), if_pos hP, htv]
  · rw [if_neg (fun hc => hP ⟨hc.2.1, hc.2.2⟩), if_neg hP]

theorem initFold_eq (ls : List String) :
    ∀ (acc : FlatTable), ls.Nodup → (∀ q ∈ ls, alGet acc q = none) →
      ls.foldl (fun a lang => alSet a lang ([] : Row)) acc =
        acc ++ ls.map (fun lang => (lang, ([] : Row))) := by
  induction ls with
  | nil =>
    intro acc _ _
    simp
  | cons lang rest ih =>
    intro acc hnd h
    rw [List.foldl_cons, alSet_of_get_none _ _ _ (h lang (List.mem_cons_self _ _))]
    rw [ih _ (List.nodup_cons.mp hnd).2]
    · simp
    · intro q hq
      rw [alGet_append]
      rw [h q (List.mem_cons_of_mem _ hq)]
      have hne : lang ≠ q := by
        intro he
        exact (List.nodup_cons.mp hnd).1 (he ▸ hq)
      simp [ovr, alGet, hne]

theorem fillStep_map_fst (doc : TransDoc) (key : String) (acc : FlatTable) (lang : String)
    (h : (alGet acc lang).isSome) :
    (fillStep doc key acc lang).map Prod.fst = acc.map Prod.fst := by
  unfold fillStep
  cases hdoc : alGet doc key with
  | none => rfl
  | some entry =>
    dsimp only
    cases hentry : alGet entry lang with
    | none => rfl
    | some s =>
      dsimp only
      by_cases hs : s = ""
      · simp [hs]
      · rw [if_neg hs]
        obtain ⟨w, hw⟩ := Option.isSome_iff_exists.mp h
        exact alSet2_map_fst_of_get_some _ _ _ _ _ hw

theorem fillStep_get_isSome (doc : TransDoc) (key : String) (acc : FlatTable)
    (lang q : String) (h : (alGet acc q).isSome) :
    (alGet (fillStep doc key acc lang) q).isSome := by
  unfold fillStep
  cases hdoc : alGet doc key with
  | none => exact h
  | some entry =>
    dsimp only
    cases hentry : alGet entry lang with
    | none => exact h
    | some s =>
      dsimp only
      by_cases hs : s = ""
      · simpa [hs] using h
      · rw [if_neg hs]
        exact alGet_alSet_isSome _ _ _ _ h

theorem fillFold_pres (doc : TransDoc) (key : String) :
    ∀ (ls : List String) (acc : FlatTable), (∀ x ∈ ls, (alGet acc x).isSome) →
      ((ls.foldl (fillStep doc key) acc).map Prod.fst = acc.map Prod.fst ∧
       ∀ q, (alGet acc q).isSome → (alGet (ls.foldl (fillStep doc key) acc) q).isSome) := by
  intro ls
  induction ls with
  | nil => exact fun acc _ => ⟨rfl, fun _ h => h⟩
  | cons lang rest ih =>
    intro acc h
    rw [List.foldl_cons]
    have hlang := h lang (List.mem_cons_self _ _)
    have hrest : ∀ x ∈ rest, (alGet (fillStep doc key acc lang) x).isSome :=
      fun x hx => fillStep_get_isSome _ _ _ _ _ (h x (List.mem_cons_of_mem _ hx))
    obtain ⟨h1, h2⟩ := ih (fillStep doc key acc lang) hrest
    refine ⟨h1.trans (fillStep_map_fst _ _ _ _ hlang), fun q hq => ?_⟩
    exact h2 q (fillStep_get_isSome _ _ _ _ _ hq)

theorem outerFold_pres (doc : TransDoc) (langs : List String) :
    ∀ (ks : List String) (acc : FlatTable), (∀ x ∈ langs, (alGet acc x).isSome) →
      ((ks.foldl
          (fun acc key =>
            if isReserved key then acc else langs.foldl (fillStep doc key) acc)
          acc).map Prod.fst = acc.map Prod.fst ∧
       ∀ x ∈ langs,
         (alGet
           (ks.foldl
             (fun acc key =>
               if isReserved key then acc else langs.foldl (fillStep doc key) acc)
             acc) x).isSome) := by
  intro ks
  induction ks with
  | nil => exact fun acc h => ⟨rfl, h⟩
  | cons key rest ih =>
    intro acc h
    rw [List.foldl_cons]
    by_cases hres : isReserved key
    · rw [if_pos hres]
      exact ih acc h
    · rw [if_neg hres]
      obtain ⟨h1, h2⟩ := fillFold_pres doc key langs acc h
      have hlangs : ∀ x ∈ langs, (alGet (langs.foldl (fillStep doc key) acc) x).isSome :=
        fun x hx => h2 x (h x hx)
      obtain ⟨g1, g2⟩ := ih _ hlangs
      exact ⟨g1.trans h1, g2⟩

theorem alGet_map_const_isSome (ls : List String) (x : String) (c : Row)
    (h : x ∈ ls) : (alGet (ls.map (fun lang => (lang, c))) x).isSome := by
  induction ls with
  | nil => simp at h
  | cons lang rest ih =>
    rcases List.mem_cons.mp h with h1 | h1
    · simp [alGet, h1]
    · by_cases h2 : lang = x
      · simp [alGet, h2]
      · simpa [alGet, h2] using ih h1

/-- The locale keys of the reshaped table are exactly the detected
languages, in order. -/
theorem reshape_map_fst (doc : TransDoc) (h : (languagesOf doc).Nodup) :
    (reshape doc).map Prod.fst = languagesOf doc := by
  simp only [reshape]
  have hinit := initFold_eq (languagesOf doc) ([] : FlatTable) h (fun q _ => rfl)
  rw [hinit]
  simp only [List.nil_append]
  have hpres := outerFold_pres doc (languagesOf doc) (doc.map Prod.fst)
    ((languagesOf doc).map (fun lang => (lang, ([] : Row))))
    (fun x hx => alGet_map_const_isSome _ _ _ hx)
  rw [hpres.1, List.map_map]
  exact List.map_id _

/-- When the first entry of the document has no locales, the reshape is
empty. -/
theorem reshape_empty_of_no_langs (d : TransDoc) (h : languagesOf d = []) :
    reshape d = [] := by
  have : ∀ (ks : List String) (acc : FlatTable),
      ks.foldl
        (fun acc key =>
          if isReserved key then acc else List.foldl (fillStep d key) acc [])
        acc = acc := by
    intro ks
    induction ks with
    | nil => exact fun acc => rfl
    | cons key rest ih =>
      intro acc
      rw [List.foldl_cons, List.foldl_nil, ite_self]
      exact ih acc
  simp only [reshape, h]
  rw [this]
  rfl

/-! ### Interpolation lemmas -/

theorem specSimulSubstGo_single (k v : String) :
    ∀ (fuel : Nat) (s : List Char),
      specSimulSubstGo [(k, v)] fuel s = replAllGo k.toList v.toList fuel s := by
  intro fuel
  induction fuel with
  | zero =>
    intro s
    cases s <;> rfl
  | succ f ih =>
    intro s
    cases s with
    | nil => rfl
    | cons c cs =>
      simp only [specSimulSubstGo, replAllGo, specFindMatch]
      cases hm : matchPlaceholder k.toList (c :: cs) with
      | some r => simp [ih]
      | none => simp [ih]

theorem interpolate_single_eq_spec (text k v : String) :
    interpolateParams text (some [(k, v)]) = specSimulSubst text [(k, v)] := by
  simp [interpolateParams, specSimulSubst, replaceAllPl, specSimulSubstGo_single]

/-! ## The claims -/

/-- C1, counterexample: in a reconcile run that fetches and applies a new
table, the trace persists the version (index 1) before the table (index 3),
so the claimed data-before-version ordering is violated at this concrete
input. -/
theorem reconcile_data_before_version_cex :
    (onVersionChange (VersionData.num 1) (some [("k1", [("en", "A")])])
        ⟨none, none, 0, []⟩).2 =
      [Eff.setMemVersion 1, Eff.persistVersion 1,
       Eff.setMemTable [("en", [("k1", "A")])],
       Eff.persistTable [("en", [("k1", "A")])]] ∧
    dataBeforeVersion
      (onVersionChange (VersionData.num 1) (some [("k1", [("en", "A")])])
        ⟨none, none, 0, []⟩).2 = false := by
  constructor
  · decide
  · decide

/-- C1, amended: within a single reconcile run the new VersionCounter is
persisted strictly before the new LocaleTable: in every trace of
`onVersionChange`, any table persistence is preceded by a version
persistence, so an interruption between the two writes can leave the
persisted version ahead of the persisted translation data. -/
theorem reconcile_version_persisted_before_table (vd : VersionData)
    (doc : Option TransDoc) (s : SyncState) :
    versionBeforeData (onVersionChange vd doc s).2 = true := by
  by_cases h : s.storedVersion.getD 0 < extractVersion vd
  · cases doc with
    | none => simp [onVersionChange, fetchAndUpdateTranslations, versionBeforeData, h]
    | some d => simp [onVersionChange, fetchAndUpdateTranslations, versionBeforeData, h]
  · simp [onVersionChange, versionBeforeData, h]

/-- C2, counterexample: with the remote document absent and remote version 1
above the stored version, the reconcile still advances the persisted
version to 1 (the claim says it must not advance), and a second reconcile
observing the same remote version is a no-op instead of retrying the
fetch. -/
theorem reconcile_absent_doc_cex :
    (onVersionChange (VersionData.num 1) none cachedState).1.storedVersion = some 1 ∧
    (onVersionChange (VersionData.num 1) none cachedState).1.memTable =
      cachedState.memTable ∧
    onVersionChange (VersionData.num 1) none
        (onVersionChange (VersionData.num 1) none cachedState).1 =
      ((onVersionChange (VersionData.num 1) none cachedState).1, []) := by
  refine ⟨?_, ?_, ?_⟩ <;> decide

/-- C2, amended: when the remote version exceeds the stored one and the
document is absent, the in-memory table and persisted table are unchanged,
but the persisted VersionCounter has already been advanced to the remote
version, so a subsequent reconcile observing the same remote version
performs no writes (no retry); and when the document is present but
reshaping yields no languages, the empty table replaces the in-memory
table and is persisted. -/
theorem reconcile_fetch_failure_state (vd : VersionData) (s : SyncState)
    (h : s.storedVersion.getD 0 < extractVersion vd) :
    ((onVersionChange vd none s).1.memTable = s.memTable ∧
     (onVersionChange vd none s).1.storedData = s.storedData ∧
     (onVersionChange vd none s).1.storedVersion = some (extractVersion vd) ∧
     onVersionChange vd none (onVersionChange vd none s).1 =
       ((onVersionChange vd none s).1, [])) ∧
    ∀ d : TransDoc, languagesOf d = [] →
      (onVersionChange vd (some d) s).1.memTable = [] ∧
      (onVersionChange vd (some d) s).1.storedData = some [] := by
  constructor
  · have h1 : (onVersionChange vd none s).1 =
        { s with memVersion := extractVersion vd,
                 storedVersion := some (extractVersion vd) } := by
      simp [onVersionChange, fetchAndUpdateTranslations, h]
    refine ⟨by rw [h1], by rw [h1], by rw [h1], ?_⟩
    rw [h1]
    simp [onVersionChange, fetchAndUpdateTranslations, lt_irrefl]
  · intro d hd
    have hr := reshape_empty_of_no_langs d hd
    constructor <;> simp [onVersionChange, fetchAndUpdateTranslations, h, hr]

theorem reconcile_fetch_failure_state_witness :
    (onVersionChange (VersionData.num 5) none ⟨some 3, none, 3, []⟩).1.storedVersion =
      some 5 :=
  (reconcile_fetch_failure_state (VersionData.num 5) ⟨some 3, none, 3, []⟩
    (by decide)).1.2.2.1

/-- C3, counterexample: under `tr` the walk of key `a` completes with a
non-string (an object), the fallback locale `en` holds the string `X`
there, yet the resolver returns the key `a` without consulting the
fallback, contradicting the claim that a completed-but-non-string walk
switches to the fallback locale. -/
theorem resolver_nonstring_no_fallback_cex :
    t nonStringTable "tr" "en" "a" none = "a" ∧
    walkStr (alGet nonStringTable "tr") (splitDot "a") = none ∧
    walkStr (alGet nonStringTable "en") (splitDot "a") = some "X" ∧
    t nonStringTable "tr" "en" "a" none ≠ interpolateParams "X" none := by
  refine ⟨?_, ?_, ?_, ?_⟩ <;> decide

/-- C3, amended: the fallback walk happens only on a segment miss: when the
current-locale walk misses a segment and the locales differ, the resolver
walks the fallback locale from the root and uses its result exactly when
that walk completes with a string; when the current-locale walk completes
with a non-string value, the resolver returns the key without consulting
the fallback locale. -/
theorem resolver_fallback_structure (tbl : List (String × JVal))
    (locale fb key : String) (params : Option (List (String × String))) :
    (locale ≠ fb → mainWalk (alGet tbl locale) (splitDot key) = MainRes.missed →
       t tbl locale fb key params =
         match walkStr (alGet tbl fb) (splitDot key) with
         | some s => interpolateParams s params
         | none => key) ∧
    (∀ v, mainWalk (alGet tbl locale) (splitDot key) = MainRes.completed v →
       (∀ s, v ≠ some (JVal.str s)) → t tbl locale fb key params = key) := by
  constructor
  · intro hne hm
    unfold t
    rw [hm]
    dsimp only
    rw [if_pos hne]
  · intro v hm hns
    unfold t
    rw [hm]
    cases v with
    | none => rfl
    | some jv =>
      cases jv with
      | str s => exact absurd rfl (hns s)
      | obj fields => rfl
      | other => rfl

theorem resolver_fallback_structure_witness :
    t fallbackTable "tr" "en" "greet" none = "Hi" :=
  ((resolver_fallback_structure fallbackTable "tr" "en" "greet" none).1
    (by decide) rfl).trans rfl

/-- C4, counterexample: locale `tr` appears only under the second top-level
key of the document, so although `doc[k2][tr] = B` and `k2` is not
reserved, the reshaped table has no entry at `tr`/`k2`, contradicting the
claimed full inversion. -/
theorem reshape_inversion_cex :
    docVal lateLocaleDoc "k2" "tr" = some "B" ∧
    isReserved "k2" = false ∧
    lookup2 (reshape lateLocaleDoc) "tr" "k2" = none := by
  refine ⟨?_, ?_, ?_⟩ <;> decide

/-- C4, amended: reshaping inverts the two mapping levels restricted to the
locales detected from the document's first top-level entry and to truthy
values: the reshaped table maps `l` to `k` to `s` exactly when `k` is not
reserved, `l` is a second-level key of the first entry, and `doc[k][l] = s`
with `s` nonempty; the specification's round-trip example reshapes as
stated. -/
theorem reshape_inversion_characterization :
    (∀ (doc : TransDoc) (l k s : String),
       lookup2 (reshape doc) l k = some s ↔
         isReserved k = false ∧ l ∈ languagesOf doc ∧
           docVal doc k l = some s ∧ s ≠ "") ∧
    reshape exampleDoc =
      [("en", [("k1", "A"), ("k2", "C")]), ("tr", [("k1", "B")])] := by
  constructor
  · intro doc l k s
    rw [reshape_lookup]
    by_cases hP : isReserved k = false ∧ l ∈ languagesOf doc
    · rw [if_pos hP]
      unfold truthyVal
      cases hd : docVal doc k l with
      | none => simp [hP.1, hP.2]
      | some s1 =>
        dsimp only
        by_cases hs : s1 = ""
        · subst hs
          simp only [if_pos rfl]
          constructor
          · intro hfalse
            exact absurd hfalse (by simp)
          · rintro ⟨-, -, heq, hne⟩
            exact absurd (Option.some_injective _ heq).symm hne
        · rw [if_neg hs]
          constructor
          · intro heq
            obtain rfl := Option.some_injective _ heq
            exact ⟨hP.1, hP.2, rfl, hs⟩
          · rintro ⟨-, -, heq, -⟩
            exact heq
    · rw [if_neg hP]
      constructor
      · intro hfalse
        exact absurd hfalse (by simp)
      · rintro ⟨ha, hb, -, -⟩
        exact absurd ⟨ha, hb⟩ hP
  · decide

theorem reshape_inversion_characterization_witness :
    lookup2 (reshape exampleDoc) "en" "k1" = some "A" :=
  (reshape_inversion_characterization.1 exampleDoc "en" "k1" "A").mpr (by decide)

/-- C5: the resolver is total by construction (it is a plain function into
`String`), and when neither the current-locale walk nor the fallback walk
yields a string it returns exactly the original key, for every key, params
mapping and table state. -/
theorem resolver_miss_returns_key (tbl : List (String × JVal)) (locale fb key : String)
    (params : Option (List (String × String)))
    (h1 : walkStr (alGet tbl locale) (splitDot key) = none)
    (h2 : walkStr (alGet tbl fb) (splitDot key) = none) :
    t tbl locale fb key params = key := by
  unfold t
  cases hm : mainWalk (alGet tbl locale) (splitDot key) with
  | completed v =>
    unfold walkStr at h1
    rw [hm] at h1
    cases v with
    | none => rfl
    | some jv =>
      cases jv with
      | str s => simp at h1
      | obj fields => rfl
      | other => rfl
  | missed =>
    dsimp only
    by_cases hd : locale ≠ fb
    · rw [if_pos hd, h2]
    · rw [if_neg hd]

theorem resolver_miss_returns_key_witness :
    t [] "tr" "en" "a.b" none = "a.b" :=
  resolver_miss_returns_key [] "tr" "en" "a.b" none (by decide) (by decide)

/-- C6: a reconcile run only ever persists versions strictly greater than
the currently stored one, and re-running it against an unchanged remote
version from the resulting state performs zero writes and leaves the state
unchanged. -/
theorem reconcile_version_monotone (vd : VersionData) (doc : Option TransDoc)
    (s : SyncState) :
    (∀ v, Eff.persistVersion v ∈ (onVersionChange vd doc s).2 →
       s.storedVersion.getD 0 < v) ∧
    onVersionChange vd doc (onVersionChange vd doc s).1 =
      ((onVersionChange vd doc s).1, []) := by
  by_cases h : s.storedVersion.getD 0 < extractVersion vd
  · constructor
    · intro v hv
      cases doc with
      | none =>
        simp [onVersionChange, fetchAndUpdateTranslations, h] at hv
        exact hv ▸ h
      | some d =>
        simp [onVersionChange, fetchAndUpdateTranslations, h] at hv
        exact hv ▸ h
    · cases doc with
      | none => simp [onVersionChange, fetchAndUpdateTranslations, h, lt_irrefl]
      | some d => simp [onVersionChange, fetchAndUpdateTranslations, h, lt_irrefl]
  · constructor
    · intro v hv
      simp [onVersionChange, h] at hv
    · simp [onVersionChange, h]

theorem reconcile_version_monotone_witness :
    (0 : Nat) < 2 ∧
    onVersionChange (VersionData.num 2) none
        ((onVersionChange (VersionData.num 2) none ⟨none, none, 0, []⟩).1) =
      ((onVersionChange (VersionData.num 2) none ⟨none, none, 0, []⟩).1, []) :=
  ⟨(reconcile_version_monotone (VersionData.num 2) none ⟨none, none, 0, []⟩).1 2
      (by decide),
   (reconcile_version_monotone (VersionData.num 2) none ⟨none, none, 0, []⟩).2⟩

/-- C7: the polling effect ignores the configured `pollingInterval` prop
entirely and always arms a 30000 ms timer when sync is enabled — in
particular `pollingInterval = 0` does not disable the timer, contradicting
the prop's own documentation. -/
theorem pollingTimer_ignores_configured_interval (n : Option Nat) :
    pollingTimerInterval ⟨false, n⟩ = some 30000 := rfl

/-- C8, counterexample: with params entries `a ↦ {{b}}` and `b ↦ X` in that
order, the template `{{a}}` interpolates to `X` — the value substituted for
`{{a}}` is rescanned by the later entry — while the claimed simultaneous
substitution yields `{{b}}`. -/
theorem interpolation_sequential_cex :
    interpolateParams "\x7b\x7ba\x7d\x7d"
        (some [("a", "\x7b\x7bb\x7d\x7d"), ("b", "X")]) = "X" ∧
    specSimulSubst "\x7b\x7ba\x7d\x7d"
        [("a", "\x7b\x7bb\x7d\x7d"), ("b", "X")] = "\x7b\x7bb\x7d\x7d" ∧
    interpolateParams "\x7b\x7ba\x7d\x7d"
        (some [("a", "\x7b\x7bb\x7d\x7d"), ("b", "X")]) ≠
      specSimulSubst "\x7b\x7ba\x7d\x7d" [("a", "\x7b\x7bb\x7d\x7d"), ("b", "X")] := by
  refine ⟨?_, ?_, ?_⟩ <;> decide

/-- C8, amended: params entries are applied sequentially in entry order —
interpolating with `ps ++ qs` equals interpolating with `ps` and then with
`qs`, so earlier-substituted values are rescanned by later entries — and
for single-entry params the result coincides with the specification's
simultaneous whitespace-tolerant substitution. -/
theorem interpolation_sequential_law :
    (∀ (text k v : String),
       interpolateParams text (some [(k, v)]) = specSimulSubst text [(k, v)]) ∧
    (∀ (text : String) (ps qs : List (String × String)),
       interpolateParams text (some (ps ++ qs)) =
         interpolateParams (interpolateParams text (some ps)) (some qs)) := by
  constructor
  · exact interpolate_single_eq_spec
  · intro text ps qs
    simp [interpolateParams, List.foldl_append]

/-- C9: the locale keys of the reshaped table are exactly the second-level
keys of the document's first top-level entry, in order, even when that
first key is reserved; a locale appearing only under later keys is
absent. -/
theorem reshape_locales_from_first_key (k0 : String) (v0 : Row) (rest : TransDoc)
    (h : (v0.map Prod.fst).Nodup) :
    (reshape ((k0, v0) :: rest)).map Prod.fst = v0.map Prod.fst :=
  reshape_map_fst ((k0, v0) :: rest) h

theorem reshape_locales_from_first_key_witness :
    (reshape [("---meta", [("en", "x")])]).map Prod.fst = ["en"] :=
  (reshape_locales_from_first_key "---meta" [("en", "x")] [] (by decide)).trans rfl

/-- C10: for a non-reserved key and a detected locale, the reshaped table
has an entry exactly when the document's value is truthy; in particular an
empty-string translation is omitted. -/
theorem reshape_drops_falsy (doc : TransDoc) (k l : String)
    (hk : isReserved k = false) (hl : l ∈ languagesOf doc) :
    ((lookup2 (reshape doc) l k ≠ none ↔
        ∃ s, docVal doc k l = some s ∧ s ≠ "") ∧
     (docVal doc k l = some "" → lookup2 (reshape doc) l k = none)) := by
  constructor
  · rw [reshape_lookup, if_pos ⟨hk, hl⟩]
    unfold truthyVal
    cases hd : docVal doc k l with
    | none => simp
    | some s1 =>
      dsimp only
      by_cases hs : s1 = ""
      · subst hs
        simp
      · rw [if_neg hs]
        constructor
        · intro _
          exact ⟨s1, rfl, hs⟩
        · intro _
          simp
  · intro hd
    rw [reshape_lookup, if_pos ⟨hk, hl⟩]
    unfold truthyVal
    rw [hd]
    simp

theorem reshape_drops_falsy_witness :
    lookup2 (reshape falsyDoc) "tr" "k" ≠ none :=
  (reshape_drops_falsy falsyDoc "k" "tr" (by decide) (by decide)).1.mpr
    ⟨"B", by decide, by decide⟩

end RNFT
